import Mathlib

/-!
Verification of the MinHash / LSH similarity engine.

This file gives a shallow embedding of the similarity-estimation core:
Jaccard similarity over finite sets, the affine hash-function family,
MinHash signature construction, signature-based Jaccard estimation,
LSH banding with candidate-pair generation, and LSH parameter selection.
Real-number arithmetic of the source is modelled by exact rational
arithmetic; fallible operations return an Except value.
-/

set_option maxRecDepth 1000000

namespace MLBD

/-! ## Jaccard similarity (jaccard.py) -/

/-- Embedding of jaccard_similarity: if both sets are empty return 1,
otherwise the intersection cardinality over the union cardinality
(the union-empty branch of the source returns 0, although it is only
reachable when both sets are empty). -/
def jaccardSimilarity (a b : Finset ℕ) : ℚ :=
  if a = ∅ ∧ b = ∅ then 1
  else if a ∪ b = ∅ then 0
  else ((a ∩ b).card : ℚ) / ((a ∪ b).card : ℚ)

/-! ## MinHash (minhash.py) -/

/-- Embedding of the module constant PRIME = 4_294_967_311. -/
def PRIME : ℕ := 4294967311

/-- Embedding of the HashFunction dataclass: fields a, b and prime
(default PRIME). -/
structure HashFunction where
  a : ℕ
  b : ℕ
  prime : ℕ := PRIME
deriving DecidableEq, Repr

/-- Embedding of HashFunction.apply: ((a * x + b) % prime) % m. -/
def HashFunction.apply (f : HashFunction) (x m : ℕ) : ℕ :=
  ((f.a * x + f.b) % f.prime) % m

/-- Model of the stdlib generator random.Random(seed): a deterministic
state machine, seeded once.  The exact byte stream of the stdlib
generator (a Mersenne twister) is library code outside this repository;
it is modelled by a concrete linear-congruential mixing step.  The model
preserves the two properties the source relies on: the stream is a pure
function of the seed, and each draw stays inside the requested range. -/
def rngNext (state : ℕ) : ℕ × ℕ :=
  let out := (state * 6364136223846793005 + 1442695040888963407) % (2 ^ 64)
  (out, out)

/-- Model of Random.randrange(lo, hi): a value in [lo, hi) plus the
advanced generator state. -/
def randrange (lo hi : ℕ) (state : ℕ) : ℕ × ℕ :=
  ((rngNext state).1 % (hi - lo) + lo, (rngNext state).2)

/-- Embedding of the loop body of generate_hash_functions: draw
a from [1, PRIME) then b from [0, PRIME), thread the generator state. -/
def generateHashFunctionsAux : ℕ → ℕ → List HashFunction
  | 0, _ => []
  | n + 1, state =>
    let ra := randrange 1 PRIME state
    let rb := randrange 0 PRIME ra.2
    { a := ra.1, b := rb.1 } :: generateHashFunctionsAux n rb.2

/-- Embedding of generate_hash_functions(count, seed): seed the generator
once, then draw count (a, b) pairs in order. -/
def generateHashFunctions (count : ℕ) (seed : ℕ) : List HashFunction :=
  generateHashFunctionsAux count seed

/-- Minimum of a list of naturals, modelling the builtin min over a
non-empty sequence (the source only applies it to non-empty ones). -/
def listMin : List ℕ → ℕ
  | [] => 0
  | [x] => x
  | x :: y :: rest => min x (listMin (y :: rest))

/-- Embedding of minhash_signature_from_ints(items, hash_functions, m):
the sentinel signature [m, ..., m] when items is empty, otherwise one
minimum per hash function. -/
def minhashSignatureFromInts (items : List ℕ) (hashFunctions : List HashFunction)
    (m : ℕ) : List ℕ :=
  if items = [] then List.replicate hashFunctions.length m
  else hashFunctions.map (fun f => listMin (items.map (fun x => f.apply x m)))

/-- Embedding of estimate_jaccard_from_signatures(sig_a, sig_b): error on
a length mismatch, 1 on two empty signatures, otherwise the number of
agreeing positions over the common length. -/
def estimateJaccardFromSignatures (sigA sigB : List ℕ) : Except String ℚ :=
  if sigA.length ≠ sigB.length then Except.error ("Signatures must have the same length")
  else if sigA = [] then Except.ok 1
  else Except.ok ((((sigA.zip sigB).countP (fun p => p.1 == p.2) : ℕ) : ℚ) / (sigA.length : ℚ))

/-! ## LSH parameter selection (lsh.py) -/

/-- Embedding of the LshParams dataclass: r bands, b rows per band
(in the naming of the source). -/
structure LshParams where
  r : ℕ
  b : ℕ
deriving DecidableEq, Repr

/-- Probability formula 1 - (1 - s^b)^r without the domain guard; used
both by the embedding of lsh_probability and by the specification of the
parameter selector. -/
def lshProbabilityRaw (similarity : ℚ) (r b : ℕ) : ℚ :=
  1 - (1 - similarity ^ b) ^ r

/-- Embedding of lsh_probability(similarity, r, b): guard the domain,
then 1 - (1 - s^b)^r. -/
def lshProbability (similarity : ℚ) (r b : ℕ) : Except String ℚ :=
  if similarity < 0 ∨ 1 < similarity then Except.error ("similarity must be in [0, 1]")
  else Except.ok (lshProbabilityRaw similarity r b)

/-- Embedding of lsh_slope(similarity, r, b): 0 at or beyond the domain
boundaries, otherwise r * b * s^(b-1) * (1 - s^b)^(r-1). -/
def lshSlope (similarity : ℚ) (r b : ℕ) : ℚ :=
  if similarity ≤ 0 then 0
  else if 1 ≤ similarity then 0
  else (r : ℚ) * (b : ℚ) * similarity ^ (b - 1) * (1 - similarity ^ b) ^ (r - 1)

/-- Embedding of factor_pairs(n): the pairs (r, n / r) for r from 1 to n
with r dividing n, in increasing r order. -/
def factorPairs (n : ℕ) : List (ℕ × ℕ) :=
  ((List.range' 1 n).filter (fun r => n % r == 0)).map (fun r => (r, n / r))

/-- Embedding of the candidate loop of choose_lsh_params.  The running
best is None or a triple (params, best distance to 1/2, best slope); a
candidate replaces the best when its distance is strictly smaller, or on
an exact distance tie when its slope is strictly larger.  The error of
lsh_probability propagates, as an uncaught exception does. -/
def chooseLoop (tau : ℚ) :
    List (ℕ × ℕ) → Option (LshParams × ℚ × ℚ) → Except String (Option (LshParams × ℚ × ℚ))
  | [], best => Except.ok best
  | c :: rest, best =>
    match lshProbability tau c.1 c.2 with
    | Except.error e => Except.error e
    | Except.ok fTau =>
      let distance := |fTau - 1 / 2|
      let slope := lshSlope tau c.1 c.2
      let newBest :=
        match best with
        | none => some (⟨c.1, c.2⟩, distance, slope)
        | some (bp, bd, bs) =>
          if distance < bd then some (⟨c.1, c.2⟩, distance, slope)
          else if distance = bd ∧ bs < slope then some (⟨c.1, c.2⟩, distance, slope)
          else some (bp, bd, bs)
      chooseLoop tau rest newBest

/-- Embedding of choose_lsh_params(t, tau): run the candidate loop over
factor_pairs t starting from no best; error when no candidate exists. -/
def chooseLshParams (t : ℕ) (tau : ℚ) : Except String LshParams :=
  match chooseLoop tau (factorPairs t) none with
  | Except.error e => Except.error e
  | Except.ok none => Except.error ("No valid LSH parameters found")
  | Except.ok (some (p, _, _)) => Except.ok p

/-- Distance of the candidate probability to 1/2 at threshold tau, the
primary score of choose_lsh_params. -/
def distTo (tau : ℚ) (c : ℕ × ℕ) : ℚ :=
  |lshProbabilityRaw tau c.1 c.2 - 1 / 2|

/-- Slope of the candidate probability curve at tau, the tie-break score
of choose_lsh_params. -/
def slopeTo (tau : ℚ) (c : ℕ × ℕ) : ℚ :=
  lshSlope tau c.1 c.2

/-- The replacement test of choose_lsh_params: candidate c displaces the
running best d when its distance to 1/2 is strictly smaller, or the
distances tie exactly and its slope is strictly larger. -/
def betterCandidate (tau : ℚ) (c d : ℕ × ℕ) : Prop :=
  distTo tau c < distTo tau d ∨
    (distTo tau c = distTo tau d ∧ slopeTo tau d < slopeTo tau c)

instance (tau : ℚ) (c d : ℕ × ℕ) : Decidable (betterCandidate tau c d) := by
  unfold betterCandidate
  infer_instance

/-- Pure selection fold of choose_lsh_params: scan the candidates in
list order, starting from the first candidate as initial best, replacing
the best exactly when the replacement test fires. -/
def chooseFold (tau : ℚ) (l : List (ℕ × ℕ)) (cur : ℕ × ℕ) : ℕ × ℕ :=
  l.foldl (fun best c => if betterCandidate tau c best then c else best) cur

/-! ## LSH banding over a signature matrix (movielens_analysis.py) -/

/-- Window of a signature row used by one band: the slice
row[start : start + width]. -/
def bandSlice (row : List ℕ) (start width : ℕ) : List ℕ :=
  (row.drop start).take width

/-- Pairs contributed by one band of lsh_candidate_pairs.  The source
groups row indices into buckets keyed by the exact band window and emits
combinations(bucket, 2); two indices share a bucket exactly when their
windows are equal, and combinations lists index pairs (a, b) with a
before b, so the emitted pairs of a band are the identifier pairs
(user_ids[a], user_ids[b]) over index pairs a < b with equal windows. -/
def bandPairs (userIds : List ℕ) (sigs : List (List ℕ)) (start width : ℕ) :
    Finset (ℕ × ℕ) :=
  ((Finset.range sigs.length ×ˢ Finset.range sigs.length).filter
    (fun ij => ij.1 < ij.2 ∧
      bandSlice (sigs.getD ij.1 []) start width =
        bandSlice (sigs.getD ij.2 []) start width)).image
    (fun ij => (userIds.getD ij.1 0, userIds.getD ij.2 0))

/-- Embedding of lsh_candidate_pairs(user_ids, signatures, params) for a
signature matrix of row length t: error unless r * b = t, otherwise the
cumulative candidate set over the r bands, band i covering columns
[i * b, i * b + b). -/
def lshCandidatePairs (userIds : List ℕ) (sigs : List (List ℕ)) (t : ℕ)
    (params : LshParams) : Except String (Finset (ℕ × ℕ)) :=
  if params.r * params.b ≠ t then
    Except.error ("LSH params r*b must equal signature length")
  else
    Except.ok ((List.range params.r).foldl
      (fun acc bandIndex => acc ∪ bandPairs userIds sigs (bandIndex * params.b) params.b) ∅)

/-! ## The pre-hash (hash_token): blake2b with an 8-byte digest

hash_token(token) is hashlib.blake2b(token.encode("utf-8"),
digest_size=8).digest() read as a big-endian unsigned integer.  The
embedding below follows RFC 7693 for an unkeyed blake2b with an 8-byte
digest: parameter-block initialisation, the G mixing function, the
12-round compression function, and sequential block processing. -/

/-- Modulus of the 64-bit words of blake2b. -/
def M64 : ℕ := 2 ^ 64

/-- Word addition modulo 2^64. -/
def add64 (x y : ℕ) : ℕ := (x + y) % M64

/-- Right rotation of a 64-bit word by n bits (0 < n < 64). -/
def rotr64 (x n : ℕ) : ℕ := (x >>> n) ||| ((x <<< (64 - n)) % M64)

/-- Initialisation vector of blake2b (RFC 7693 section 2.6). -/
def blakeIV : List ℕ :=
  [0x6a09e667f3bcc908, 0xbb67ae8584caa73b, 0x3c6ef372fe94f82b, 0xa54ff53a5f1d36f1,
   0x510e527fade682d1, 0x9b05688c2b3e6c1f, 0x1f83d9abfb41bd6b, 0x5be0cd19137e2179]

/-- Message-schedule permutations of blake2b (RFC 7693 section 2.7). -/
def blakeSigma : List (List ℕ) :=
  [[0, 1, 2, 3, 4, 5, 6, 7, 8, 9, 10, 11, 12, 13, 14, 15],
   [14, 10, 4, 8, 9, 15, 13, 6, 1, 12, 0, 2, 11, 7, 5, 3],
   [11, 8, 12, 0, 5, 2, 15, 13, 10, 14, 3, 6, 7, 1, 9, 4],
   [7, 9, 3, 1, 13, 12, 11, 14, 2, 6, 5, 10, 4, 0, 15, 8],
   [9, 0, 5, 7, 2, 4, 10, 15, 14, 1, 11, 12, 6, 8, 3, 13],
   [2, 12, 6, 10, 0, 11, 8, 3, 4, 13, 7, 5, 15, 14, 1, 9],
   [12, 5, 1, 15, 14, 13, 4, 10, 0, 7, 6, 3, 9, 2, 8, 11],
   [13, 11, 7, 14, 12, 1, 3, 9, 5, 0, 15, 4, 8, 6, 2, 10],
   [6, 15, 14, 9, 11, 3, 0, 8, 12, 2, 13, 7, 1, 4, 10, 5],
   [10, 2, 8, 4, 7, 6, 1, 5, 15, 11, 9, 14, 3, 12, 13, 0]]

/-- Word i of a state vector. -/
def getW (v : List ℕ) (i : ℕ) : ℕ := v.getD i 0

/-- Mixing function G of blake2b (RFC 7693 section 3.1). -/
def gMix (v : List ℕ) (a b c d x y : ℕ) : List ℕ :=
  let va := add64 (add64 (getW v a) (getW v b)) x
  let vd := rotr64 (Nat.xor (getW v d) va) 32
  let vc := add64 (getW v c) vd
  let vb := rotr64 (Nat.xor (getW v b) vc) 24
  let va2 := add64 (add64 va vb) y
  let vd2 := rotr64 (Nat.xor vd va2) 16
  let vc2 := add64 vc vd2
  let vb2 := rotr64 (Nat.xor vb vc2) 63
  ((((v.set a va2).set b vb2).set c vc2).set d vd2)

/-- One round of the blake2b compression function: four column mixes
then four diagonal mixes, message words selected by the permutation s. -/
def blakeRound (m : List ℕ) (v : List ℕ) (s : List ℕ) : List ℕ :=
  let v1 := gMix v 0 4 8 12 (getW m (getW s 0)) (getW m (getW s 1))
  let v2 := gMix v1 1 5 9 13 (getW m (getW s 2)) (getW m (getW s 3))
  let v3 := gMix v2 2 6 10 14 (getW m (getW s 4)) (getW m (getW s 5))
  let v4 := gMix v3 3 7 11 15 (getW m (getW s 6)) (getW m (getW s 7))
  let v5 := gMix v4 0 5 10 15 (getW m (getW s 8)) (getW m (getW s 9))
  let v6 := gMix v5 1 6 11 12 (getW m (getW s 10)) (getW m (getW s 11))
  let v7 := gMix v6 2 7 8 13 (getW m (getW s 12)) (getW m (getW s 13))
  gMix v7 3 4 9 14 (getW m (getW s 14)) (getW m (getW s 15))

/-- Compression function F of blake2b (RFC 7693 section 3.2): h is the
8-word state, m the 16-word message block, t the byte counter, last the
final-block flag. -/
def blakeCompress (h : List ℕ) (m : List ℕ) (t : ℕ) (last : Bool) : List ℕ :=
  let v0 := h ++ blakeIV
  let v1 := v0.set 12 (Nat.xor (getW v0 12) (t % M64))
  let v2 := v1.set 13 (Nat.xor (getW v1 13) (t / M64 % M64))
  let v3 := if last then v2.set 14 (Nat.xor (getW v2 14) (M64 - 1)) else v2
  let vf := (List.range 12).foldl (fun v i => blakeRound m v (blakeSigma.getD (i % 10) [])) v3
  (List.range 8).map (fun i => Nat.xor (getW h i) (Nat.xor (getW vf i) (getW vf (i + 8))))

/-- Little-endian 64-bit word starting at byte offset 8 * i of a byte
list (missing bytes read as 0, which realises the zero padding of the
final block). -/
def wordAt (bs : List ℕ) (i : ℕ) : ℕ :=
  (List.range 8).foldr (fun k acc => acc * 256 + bs.getD (8 * i + k) 0) 0

/-- The 16 little-endian words of one 128-byte block. -/
def bytesToWords (bs : List ℕ) : List ℕ :=
  (List.range 16).map (wordAt bs)

/-- Initial state of an unkeyed blake2b with digest_size = 8: the IV with
word 0 xored with the parameter block 0x0101kknn for key length kk = 0
and digest length nn = 8. -/
def blakeInit8 : List ℕ :=
  blakeIV.set 0 (Nat.xor (getW blakeIV 0) 0x01010008)

/-- Sequential block processing of blake2b: every full block before the
last is compressed with the running byte counter, the final (possibly
empty or partial, zero-padded) block with the total length and the
final-block flag. -/
def blakeLoopFuel : ℕ → List ℕ → List ℕ → ℕ → List ℕ
  | 0, h, bs, count => blakeCompress h (bytesToWords bs) (count + bs.length) true
  | fuel + 1, h, bs, count =>
    if bs.length ≤ 128 then
      blakeCompress h (bytesToWords bs) (count + bs.length) true
    else
      blakeLoopFuel fuel (blakeCompress h (bytesToWords (bs.take 128)) (count + 128) false)
        (bs.drop 128) (count + 128)

/-- Sequential block processing of blake2b, with enough fuel for every
block of the input: each recursive step consumes 128 bytes, so
bs.length / 128 + 1 steps always reach the final block. -/
def blakeLoop (h : List ℕ) (bs : List ℕ) (count : ℕ) : List ℕ :=
  blakeLoopFuel (bs.length / 128 + 1) h bs count

/-- UTF-8 encoding of one character. -/
def encodeChar (c : Char) : List ℕ :=
  let n := c.toNat
  if n < 0x80 then [n]
  else if n < 0x800 then [0xC0 + n / 64, 0x80 + n % 64]
  else if n < 0x10000 then [0xE0 + n / 4096, 0x80 + n / 64 % 64, 0x80 + n % 64]
  else [0xF0 + n / 262144, 0x80 + n / 4096 % 64, 0x80 + n / 64 % 64, 0x80 + n % 64]

/-- Embedding of token.encode("utf-8") as a byte list. -/
def utf8Bytes (s : String) : List ℕ :=
  s.data.foldr (fun c acc => encodeChar c ++ acc) []

/-- Byte i of a 64-bit word. -/
def byteOf (x i : ℕ) : ℕ := (x >>> (8 * i)) % 256

/-- Reading the 8 little-endian digest bytes of a 64-bit word as a
big-endian integer, as int.from_bytes(digest, "big") does. -/
def bswap64 (x : ℕ) : ℕ :=
  byteOf x 0 * 2 ^ 56 + byteOf x 1 * 2 ^ 48 + byteOf x 2 * 2 ^ 40 + byteOf x 3 * 2 ^ 32 +
    byteOf x 4 * 2 ^ 24 + byteOf x 5 * 2 ^ 16 + byteOf x 6 * 2 ^ 8 + byteOf x 7

/-- Embedding of hash_token(token): the 8-byte blake2b digest of the
UTF-8 encoding of the token, read as a big-endian unsigned integer.  The
8-byte digest of blake2b with digest_size = 8 is the little-endian
serialisation of word 0 of the final state. -/
def hashToken (token : String) : ℕ :=
  bswap64 (getW (blakeLoop blakeInit8 (utf8Bytes token) 0) 0)

/-- Embedding of minhash_signature(tokens, hash_functions, m): pre-hash
every token, then the same construction as the integer variant. -/
def minhashSignature (tokens : List String) (hashFunctions : List HashFunction)
    (m : ℕ) : List ℕ :=
  if tokens.map hashToken = [] then List.replicate hashFunctions.length m
  else hashFunctions.map (fun f => listMin ((tokens.map hashToken).map (fun x => f.apply x m)))

/-! ## Helper lemmas -/

lemma listMin_mem (l : List ℕ) (h : l ≠ []) : listMin l ∈ l := by
  induction l with
  | nil => exact absurd rfl h
  | cons x xs ih =>
    cases xs with
    | nil => simp [listMin]
    | cons y rest =>
      rcases min_choice x (listMin (y :: rest)) with hm | hm
      · simp [listMin, hm]
      · have hmem := ih (by simp)
        rw [show listMin (x :: y :: rest) = min x (listMin (y :: rest)) from rfl, hm]
        exact List.mem_cons_of_mem x hmem

lemma apply_lt (f : HashFunction) (x m : ℕ) (hm : 1 ≤ m) : f.apply x m < m :=
  Nat.mod_lt _ (by omega)

lemma zip_countP_eq_range_countP (sigA sigB : List ℕ) (h : sigA.length = sigB.length) :
    (sigA.zip sigB).countP (fun p => p.1 == p.2) =
      (List.range sigA.length).countP (fun k => sigA.getD k 0 == sigB.getD k 0) := by
  induction sigA generalizing sigB with
  | nil => simp
  | cons a as ih =>
    cases sigB with
    | nil => simp at h
    | cons b bs =>
      have hlen : as.length = bs.length := by simpa using h
      simp only [List.zip_cons_cons, List.countP_cons, List.length_cons,
        List.range_succ_eq_map, List.countP_map]
      rw [ih bs hlen]
      simp [Function.comp_def, List.getD_cons_succ, List.getD_cons_zero]

/-! ## C10: the string path refines the integer path -/

/-- C10: minhash_signature over tokens equals minhash_signature_from_ints
applied to the pre-hashed tokens, with the same hash family and modulus:
the two signature constructions are the same embedding. -/
theorem minhash_signature_refines (tokens : List String) (fs : List HashFunction) (m : ℕ) :
    minhashSignature tokens fs m = minhashSignatureFromInts (tokens.map hashToken) fs m := rfl

/-! ## C2: the empty-set sentinel -/

/-- C2: for every hash family and m >= 1, the signature of an empty item
collection is the sentinel [m, ..., m] (for the string path too); every
signature entry of a non-empty collection lies in [0, m); hence at every
position an empty-set signature differs from every non-empty-set
signature. -/
theorem minhash_empty_sentinel (fs : List HashFunction) (m : ℕ) (hm : 1 ≤ m) :
    minhashSignatureFromInts [] fs m = List.replicate fs.length m ∧
    minhashSignature [] fs m = List.replicate fs.length m ∧
    (∀ items : List ℕ, items ≠ [] → ∀ v ∈ minhashSignatureFromInts items fs m, v < m) ∧
    (∀ items : List ℕ, items ≠ [] → ∀ k, k < fs.length →
      (minhashSignatureFromInts [] fs m).getD k 0 ≠
        (minhashSignatureFromInts items fs m).getD k 0) := by
  have hval : ∀ items : List ℕ, items ≠ [] →
      ∀ v ∈ minhashSignatureFromInts items fs m, v < m := by
    intro items hne v hv
    simp only [minhashSignatureFromInts, if_neg hne] at hv
    obtain ⟨f, hf, hfe⟩ := List.mem_map.mp hv
    have hmap : items.map (fun x => f.apply x m) ≠ [] := by
      simpa using hne
    obtain ⟨x, hx, hxe⟩ := List.mem_map.mp (listMin_mem _ hmap)
    rw [← hfe, ← hxe]
    exact apply_lt f x m hm
  refine ⟨by simp [minhashSignatureFromInts], by simp [minhashSignature], hval, ?_⟩
  intro items hne k hk
  have h1 : (minhashSignatureFromInts [] fs m).getD k 0 = m := by
    simp only [minhashSignatureFromInts, if_pos rfl]
    rw [List.getD_eq_getElem _ _ (by simpa using hk)]
    simp
  have hlen : (minhashSignatureFromInts items fs m).length = fs.length := by
    simp [minhashSignatureFromInts, if_neg hne]
  have h2 : (minhashSignatureFromInts items fs m).getD k 0 < m := by
    rw [List.getD_eq_getElem _ _ (by omega)]
    exact hval items hne _ (List.getElem_mem _)
  omega

/-- C2 witness: at the one-function family [(a, b) = (1, 0)] and m = 5,
the empty signature is the sentinel [5] and the signature of {3} has an
entry below 5 that differs from the sentinel. -/
theorem minhash_empty_sentinel_witness :
    (1 : ℕ) ≤ 5 ∧
    minhashSignatureFromInts [] [{ a := 1, b := 0 }] 5 =
      List.replicate ([{ a := 1, b := 0 }] : List HashFunction).length 5 ∧
    (minhashSignatureFromInts [] [{ a := 1, b := 0 }] 5).getD 0 0 ≠
      (minhashSignatureFromInts [3] [{ a := 1, b := 0 }] 5).getD 0 0 :=
  ⟨by decide, (minhash_empty_sentinel _ 5 (by decide)).1,
    (minhash_empty_sentinel _ 5 (by decide)).2.2.2 [3] (by decide) 0 (by decide)⟩

/-! ## C1: signature-based Jaccard estimate -/

/-- C1: estimate_jaccard_from_signatures errors exactly on a length
mismatch, returns 1 on two zero-length signatures, and otherwise returns
the fraction of positions at which the two signatures agree. -/
theorem estimate_from_signatures_spec (sigA sigB : List ℕ) :
    ((∃ e, estimateJaccardFromSignatures sigA sigB = Except.error e) ↔
      sigA.length ≠ sigB.length) ∧
    (sigA = [] → sigB = [] → estimateJaccardFromSignatures sigA sigB = Except.ok 1) ∧
    (sigA.length = sigB.length → sigA ≠ [] →
      estimateJaccardFromSignatures sigA sigB =
        Except.ok ((((List.range sigA.length).countP
          (fun k => sigA.getD k 0 == sigB.getD k 0) : ℕ) : ℚ) / (sigA.length : ℚ))) := by
  refine ⟨⟨?_, ?_⟩, ?_, ?_⟩
  · rintro ⟨e, he⟩
    by_contra hlen
    rw [estimateJaccardFromSignatures, if_neg (by omega : ¬ sigA.length ≠ sigB.length)] at he
    split_ifs at he
  · intro hne
    exact ⟨_, by rw [estimateJaccardFromSignatures, if_pos hne]⟩
  · rintro rfl rfl
    rfl
  · intro hlen hne
    rw [estimateJaccardFromSignatures, if_neg (by omega), if_neg hne,
      zip_countP_eq_range_countP sigA sigB hlen]

/-- C1 witness: signatures [1, 2] and [1, 3] have equal length, so the
estimate is the agreement fraction, here 1/2. -/
theorem estimate_from_signatures_witness :
    ([1, 2] : List ℕ).length = ([1, 3] : List ℕ).length ∧
    estimateJaccardFromSignatures [1, 2] [1, 3] =
      Except.ok ((((List.range ([1, 2] : List ℕ).length).countP
        (fun k => ([1, 2] : List ℕ).getD k 0 == ([1, 3] : List ℕ).getD k 0) : ℕ) : ℚ) /
          (([1, 2] : List ℕ).length : ℚ)) :=
  ⟨rfl, (estimate_from_signatures_spec [1, 2] [1, 3]).2.2 rfl (by decide)⟩

/-! ## C7: determinism and range of the hash family -/

lemma generateAux_spec (count state : ℕ) :
    (generateHashFunctionsAux count state).length = count ∧
    ∀ f ∈ generateHashFunctionsAux count state,
      1 ≤ f.a ∧ f.a < PRIME ∧ f.b < PRIME ∧ f.prime = PRIME := by
  induction count generalizing state with
  | zero => simp [generateHashFunctionsAux]
  | succ n ih =>
    simp only [generateHashFunctionsAux]
    refine ⟨?_, ?_⟩
    · have hlen := (ih ((randrange 0 PRIME (randrange 1 PRIME state).2).2)).1
      simp [hlen]
    · intro f hf
      rcases List.mem_cons.mp hf with rfl | hmem
      · refine ⟨?_, ?_, ?_, rfl⟩
        · simp only [randrange]
          omega
        · simp only [randrange]
          have h1 : (rngNext state).1 % (PRIME - 1) < PRIME - 1 :=
            Nat.mod_lt _ (by decide)
          omega
        · simp only [randrange]
          have h1 : (rngNext ((rngNext state).2)).1 % (PRIME - 0) < PRIME - 0 :=
            Nat.mod_lt _ (by decide)
          omega
      · exact (ih _).2 f hmem

/-- C7: generate_hash_functions is a pure function of (count, seed), so
two calls with the same arguments return the identical sequence; the
sequence has length count, and every function drawn satisfies
a in [1, PRIME) and b in [0, PRIME) with modulus PRIME. -/
theorem generate_hash_functions_spec (count seed : ℕ) :
    generateHashFunctions count seed = generateHashFunctions count seed ∧
    (generateHashFunctions count seed).length = count ∧
    ∀ f ∈ generateHashFunctions count seed,
      1 ≤ f.a ∧ f.a < PRIME ∧ f.b < PRIME ∧ f.prime = PRIME :=
  ⟨rfl, (generateAux_spec count seed).1, (generateAux_spec count seed).2⟩

/-- C7 witness: the family of 5 functions from seed 42 equals itself,
has length 5, and its first member is in range. -/
theorem generate_hash_functions_witness :
    (generateHashFunctions 5 42).length = 5 ∧
    1 ≤ ((generateHashFunctions 5 42).getD 0 { a := 0, b := 0, prime := 0 }).a :=
  ⟨(generate_hash_functions_spec 5 42).2.1,
    ((generate_hash_functions_spec 5 42).2.2 _ (by decide)).1⟩

/-! ## C8: algebraic properties of exact Jaccard -/

/-- C8: jaccard of two empty sets is 1; jaccard of any non-empty set
with itself is 1; jaccard is symmetric; and the result always lies in
[0, 1]. -/
theorem jaccard_similarity_spec :
    jaccardSimilarity ∅ ∅ = 1 ∧
    (∀ A : Finset ℕ, A ≠ ∅ → jaccardSimilarity A A = 1) ∧
    (∀ A B : Finset ℕ, jaccardSimilarity A B = jaccardSimilarity B A) ∧
    (∀ A B : Finset ℕ, 0 ≤ jaccardSimilarity A B ∧ jaccardSimilarity A B ≤ 1) := by
  refine ⟨by simp [jaccardSimilarity], ?_, ?_, ?_⟩
  · intro A hA
    have hc : (A.card : ℚ) ≠ 0 := by
      simpa using Finset.card_ne_zero_of_mem (Finset.nonempty_iff_ne_empty.mpr hA).choose_spec
    simp [jaccardSimilarity, hA, div_self hc]
  · intro A B
    simp only [jaccardSimilarity, Finset.inter_comm A B, Finset.union_comm A B, and_comm]
  · intro A B
    unfold jaccardSimilarity
    split_ifs with h1 h2
    · norm_num
    · norm_num
    · have hpos : (0 : ℚ) < ((A ∪ B).card : ℚ) := by
        have : (A ∪ B).Nonempty := Finset.nonempty_iff_ne_empty.mpr h2
        exact_mod_cast Finset.card_pos.mpr this
      constructor
      · positivity
      · rw [div_le_one hpos]
        exact_mod_cast Finset.card_le_card Finset.inter_subset_union

/-- C8 witness: the singleton {1} is non-empty and its self-similarity
is 1. -/
theorem jaccard_similarity_witness :
    ({1} : Finset ℕ) ≠ ∅ ∧ jaccardSimilarity {1} {1} = 1 :=
  ⟨by decide, jaccard_similarity_spec.2.1 {1} (by decide)⟩

/-! ## Candidate-pair lemmas (C5, C3, C6) -/

instance exceptDecidableEq {ε α : Type} [DecidableEq ε] [DecidableEq α] :
    DecidableEq (Except ε α) := fun x y =>
  match x, y with
  | Except.error a, Except.error b => decidable_of_iff (a = b) (by simp)
  | Except.error _, Except.ok _ => isFalse (fun h => Except.noConfusion h)
  | Except.ok _, Except.error _ => isFalse (fun h => Except.noConfusion h)
  | Except.ok a, Except.ok b => decidable_of_iff (a = b) (by simp)

lemma mem_foldl_union (f : ℕ → Finset (ℕ × ℕ)) (l : List ℕ) (init : Finset (ℕ × ℕ))
    (x : ℕ × ℕ) :
    x ∈ l.foldl (fun acc c => acc ∪ f c) init ↔ x ∈ init ∨ ∃ c ∈ l, x ∈ f c := by
  induction l generalizing init with
  | nil => simp
  | cons c rest ih =>
    simp only [List.foldl_cons, ih, Finset.mem_union, List.mem_cons]
    aesop

/-- C5: lsh_candidate_pairs fails with the parameter-mismatch error
exactly when r * b differs from the signature length, and returns a
candidate set (no partial result, no error) otherwise. -/
theorem lsh_candidate_pairs_guard (userIds : List ℕ) (sigs : List (List ℕ)) (t : ℕ)
    (params : LshParams) :
    (params.r * params.b ≠ t →
      lshCandidatePairs userIds sigs t params =
        Except.error ("LSH params r*b must equal signature length")) ∧
    (params.r * params.b = t →
      ∃ S, lshCandidatePairs userIds sigs t params = Except.ok S) := by
  unfold lshCandidatePairs
  constructor
  · intro h
    rw [if_pos h]
  · intro h
    rw [if_neg (by omega)]
    exact ⟨_, rfl⟩

/-- C5 witness: with one band of one row against a length-1 signature
matrix, params (2, 1) violate the precondition and the call errors. -/
theorem lsh_candidate_pairs_guard_witness :
    ((⟨2, 1⟩ : LshParams).r * (⟨2, 1⟩ : LshParams).b ≠ 1) ∧
    lshCandidatePairs [1] [[0]] 1 ⟨2, 1⟩ =
      Except.error ("LSH params r*b must equal signature length") :=
  ⟨by decide, (lsh_candidate_pairs_guard [1] [[0]] 1 ⟨2, 1⟩).1 (by decide)⟩

/-- C3: two entities with identical signature rows are always emitted as
a candidate pair, for any params with r * b = t and at least one band. -/
theorem lsh_identical_signatures_candidates (userIds : List ℕ) (sigs : List (List ℕ))
    (t : ℕ) (params : LshParams) (i j : ℕ) (hr : 1 ≤ params.r)
    (hv : params.r * params.b = t) (hij : i < j) (hj : j < sigs.length)
    (hsig : sigs.getD i [] = sigs.getD j []) :
    ∃ S, lshCandidatePairs userIds sigs t params = Except.ok S ∧
      (userIds.getD i 0, userIds.getD j 0) ∈ S := by
  refine ⟨(List.range params.r).foldl
    (fun acc bandIndex => acc ∪ bandPairs userIds sigs (bandIndex * params.b) params.b) ∅,
    ?_, ?_⟩
  · rw [lshCandidatePairs, if_neg (by omega)]
  · rw [mem_foldl_union]
    right
    refine ⟨0, List.mem_range.mpr (by omega), ?_⟩
    rw [bandPairs, Finset.mem_image]
    refine ⟨(i, j), ?_, rfl⟩
    rw [Finset.mem_filter, Finset.mem_product]
    exact ⟨⟨List.mem_range.mpr (by omega), List.mem_range.mpr hj⟩, hij, by rw [hsig]⟩

/-- C3 witness: two identical one-column signatures with params (1, 1)
produce the candidate pair of the two entities. -/
theorem lsh_identical_signatures_witness :
    (1 : ℕ) ≤ 1 ∧
    (10, 20) ∈ (lshCandidatePairs [10, 20] [[1], [1]] 1 ⟨1, 1⟩).toOption.getD ∅ := by
  refine ⟨le_refl 1, ?_⟩
  obtain ⟨S, hS, hmem⟩ := lsh_identical_signatures_candidates [10, 20] [[1], [1]] 1 ⟨1, 1⟩
    0 1 (by decide) (by decide) (by decide) (by decide) (by decide)
  rw [hS]
  exact hmem

/-- C6 counterexample: with entity identifiers listed as [5, 3], the
emitted candidate pair is (5, 3), whose first component is not smaller
than its second: pairs are not keyed by sorted-ascending identifiers. -/
theorem lsh_pair_not_sorted_counterexample :
    (5, 3) ∈ (lshCandidatePairs [5, 3] [[0], [0]] 1 ⟨1, 1⟩).toOption.getD ∅ ∧
    ¬ ((5 : ℕ) < 3) := by decide

/-- C6 amended: every emitted pair is (user_ids[a], user_ids[b]) for row
indices a < b, each pair is recorded exactly once, and when the
identifier list is itself strictly increasing the pair components are in
strictly ascending order. -/
theorem lsh_pairs_index_ordered (userIds : List ℕ) (sigs : List (List ℕ)) (t : ℕ)
    (params : LshParams) (S : Finset (ℕ × ℕ))
    (hok : lshCandidatePairs userIds sigs t params = Except.ok S) :
    (∀ p ∈ S, ∃ a b, a < b ∧ b < sigs.length ∧
      p = (userIds.getD a 0, userIds.getD b 0)) ∧
    (∀ p : ℕ × ℕ, S.val.count p ≤ 1) ∧
    (List.Pairwise (fun x y => x < y) userIds → sigs.length ≤ userIds.length →
      ∀ p ∈ S, p.1 < p.2) := by
  have hS : ((List.range params.r).foldl
      (fun acc bandIndex => acc ∪ bandPairs userIds sigs (bandIndex * params.b) params.b)
      ∅) = S := by
    by_cases h : params.r * params.b ≠ t
    · rw [lshCandidatePairs, if_pos h] at hok
      exact Except.noConfusion hok
    · rw [lshCandidatePairs, if_neg h] at hok
      injection hok
  have hmem : ∀ p ∈ S, ∃ a b, a < b ∧ b < sigs.length ∧
      p = (userIds.getD a 0, userIds.getD b 0) := by
    intro p hp
    rw [← hS, mem_foldl_union] at hp
    rcases hp with h0 | ⟨band, _, hp⟩
    · exact absurd h0 (Finset.not_mem_empty p)
    · rw [bandPairs, Finset.mem_image] at hp
      obtain ⟨ij, hij, rfl⟩ := hp
      rw [Finset.mem_filter, Finset.mem_product] at hij
      exact ⟨ij.1, ij.2, hij.2.1, List.mem_range.mp hij.1.2, rfl⟩
  refine ⟨hmem, ?_, ?_⟩
  · intro p
    exact Multiset.nodup_iff_count_le_one.mp S.nodup p
  · intro hsorted hle p hp
    obtain ⟨a, b, hab, hb, rfl⟩ := hmem p hp
    have ha' : a < userIds.length := by omega
    have hb' : b < userIds.length := by omega
    show userIds.getD a 0 < userIds.getD b 0
    rw [List.getD_eq_getElem _ _ ha', List.getD_eq_getElem _ _ hb']
    exact List.pairwise_iff_getElem.mp hsorted a b ha' hb' hab

/-- C6 amended witness: with identifiers [3, 5] (strictly increasing)
the emitted pair is (3, 5), in ascending order. -/
theorem lsh_pairs_index_ordered_witness :
    lshCandidatePairs [3, 5] [[0], [0]] 1 ⟨1, 1⟩ = Except.ok {(3, 5)} ∧
    ((3 : ℕ), (5 : ℕ)).1 < ((3 : ℕ), (5 : ℕ)).2 :=
  ⟨by decide, (lsh_pairs_index_ordered [3, 5] [[0], [0]] 1 ⟨1, 1⟩ {(3, 5)}
    (by decide)).2.2 (by decide) (by decide) (3, 5) (by decide)⟩

/-! ## C9: the pre-hash range versus the prime modulus -/

lemma byteOf_lt (x i : ℕ) : byteOf x i < 256 :=
  Nat.mod_lt _ (by omega)

lemma bswap64_lt (x : ℕ) : bswap64 x < 2 ^ 64 := by
  have h0 := byteOf_lt x 0
  have h1 := byteOf_lt x 1
  have h2 := byteOf_lt x 2
  have h3 := byteOf_lt x 3
  have h4 := byteOf_lt x 4
  have h5 := byteOf_lt x 5
  have h6 := byteOf_lt x 6
  have h7 := byteOf_lt x 7
  unfold bswap64
  have e56 : (2 : ℕ) ^ 56 = 72057594037927936 := by norm_num
  have e48 : (2 : ℕ) ^ 48 = 281474976710656 := by norm_num
  have e40 : (2 : ℕ) ^ 40 = 1099511627776 := by norm_num
  have e32 : (2 : ℕ) ^ 32 = 4294967296 := by norm_num
  have e24 : (2 : ℕ) ^ 24 = 16777216 := by norm_num
  have e16 : (2 : ℕ) ^ 16 = 65536 := by norm_num
  have e8 : (2 : ℕ) ^ 8 = 256 := by norm_num
  have e64 : (2 : ℕ) ^ 64 = 18446744073709551616 := by norm_num
  rw [e56, e48, e40, e32, e24, e16, e8, e64]
  nlinarith

/-- C9 counterexample: the pre-hashed value of the single-letter token a
is an 8-byte digest value far above PRIME, so the prime does not exceed
the largest representable pre-hashed item value. -/
theorem hash_token_exceeds_prime :
    hashToken ("a") = 4681665781835383343 ∧ ¬ (hashToken ("a") < PRIME) := by decide

/-- C9 amended: every pre-hashed token value is a 64-bit quantity
(strictly below 2^64), while PRIME = 4294967311 lies strictly between
2^32 and 2^64; pre-hashed values are therefore not bounded by PRIME. -/
theorem hash_token_range (token : String) :
    hashToken token < 2 ^ 64 ∧ 2 ^ 32 < PRIME ∧ PRIME < 2 ^ 64 :=
  ⟨bswap64_lt _, by decide, by decide⟩

/-! ## C4: the parameter selector -/

lemma not_better_iff (tau : ℚ) (c d : ℕ × ℕ) :
    ¬ betterCandidate tau c d ↔
      distTo tau d < distTo tau c ∨
        (distTo tau c = distTo tau d ∧ slopeTo tau c ≤ slopeTo tau d) := by
  unfold betterCandidate
  push_neg
  constructor
  · rintro ⟨h1, h2⟩
    rcases lt_or_eq_of_le h1 with hl | he
    · exact Or.inl hl
    · exact Or.inr ⟨he.symm, h2 he.symm⟩
  · rintro (hl | ⟨he, hs⟩)
    · exact ⟨hl.le, fun he2 => by rw [he2] at hl; exact absurd hl (lt_irrefl _)⟩
    · exact ⟨le_of_eq he.symm, fun _ => hs⟩

lemma better_irrefl (tau : ℚ) (c : ℕ × ℕ) : ¬ betterCandidate tau c c := by
  rintro (h | ⟨_, h⟩) <;> exact lt_irrefl _ h

lemma better_asymm {tau : ℚ} {c d : ℕ × ℕ} (h : betterCandidate tau c d) :
    ¬ betterCandidate tau d c := by
  rcases h with h | ⟨he, hs⟩ <;> rintro (h2 | ⟨he2, hs2⟩) <;> linarith

lemma better_trans {tau : ℚ} {a b c : ℕ × ℕ} (h1 : betterCandidate tau a b)
    (h2 : betterCandidate tau b c) : betterCandidate tau a c := by
  rcases h1 with h1 | ⟨he1, hs1⟩ <;> rcases h2 with h2 | ⟨he2, hs2⟩
  · exact Or.inl (by linarith)
  · exact Or.inl (by linarith)
  · exact Or.inl (by linarith)
  · exact Or.inr ⟨by linarith, by linarith⟩

lemma not_better_trans {tau : ℚ} {a b c : ℕ × ℕ} (hab : ¬ betterCandidate tau a b)
    (hbc : ¬ betterCandidate tau b c) : ¬ betterCandidate tau a c := by
  rw [not_better_iff] at hab hbc ⊢
  rcases hab with h | ⟨he, hs⟩ <;> rcases hbc with h2 | ⟨he2, hs2⟩
  · exact Or.inl (by linarith)
  · exact Or.inl (by linarith)
  · exact Or.inl (by linarith)
  · exact Or.inr ⟨by linarith, by linarith⟩

lemma better_of_better_of_not_better {tau : ℚ} {a b c : ℕ × ℕ}
    (h1 : betterCandidate tau a b) (h2 : ¬ betterCandidate tau c b) :
    betterCandidate tau a c := by
  rw [not_better_iff] at h2
  rcases h1 with h1 | ⟨he1, hs1⟩ <;> rcases h2 with h2 | ⟨he2, hs2⟩
  · exact Or.inl (by linarith)
  · exact Or.inl (by linarith)
  · exact Or.inl (by linarith)
  · exact Or.inr ⟨by linarith, by linarith⟩

lemma chooseFold_cons (tau : ℚ) (c : ℕ × ℕ) (l : List (ℕ × ℕ)) (cur : ℕ × ℕ) :
    chooseFold tau (c :: l) cur =
      chooseFold tau l (if betterCandidate tau c cur then c else cur) := rfl

lemma chooseFold_mem (tau : ℚ) (l : List (ℕ × ℕ)) (cur : ℕ × ℕ) :
    chooseFold tau l cur ∈ cur :: l := by
  induction l generalizing cur with
  | nil => simp [chooseFold]
  | cons c rest ih =>
    rw [chooseFold_cons]
    rcases List.mem_cons.mp (ih (if betterCandidate tau c cur then c else cur)) with h | h
    · rw [h]
      split_ifs
      · simp
      · simp
    · exact List.mem_cons_of_mem _ (List.mem_cons_of_mem _ h)

lemma chooseFold_not_beaten (tau : ℚ) (l : List (ℕ × ℕ)) (cur : ℕ × ℕ) :
    ∀ d ∈ cur :: l, ¬ betterCandidate tau d (chooseFold tau l cur) := by
  induction l generalizing cur with
  | nil =>
    intro d hd
    rcases List.mem_cons.mp hd with rfl | h
    · exact better_irrefl tau d
    · simp at h
  | cons c rest ih =>
    intro d hd
    rw [chooseFold_cons]
    by_cases hb : betterCandidate tau c cur
    · rw [if_pos hb]
      rcases List.mem_cons.mp hd with rfl | hd2
      · exact not_better_trans (better_asymm hb) (ih c c (List.mem_cons_self _ _))
      · rcases List.mem_cons.mp hd2 with rfl | hd3
        · exact ih d d (List.mem_cons_self _ _)
        · exact ih c d (List.mem_cons_of_mem _ hd3)
    · rw [if_neg hb]
      rcases List.mem_cons.mp hd with rfl | hd2
      · exact ih d d (List.mem_cons_self _ _)
      · rcases List.mem_cons.mp hd2 with rfl | hd3
        · exact not_better_trans hb (ih cur cur (List.mem_cons_self _ _))
        · exact ih cur d (List.mem_cons_of_mem _ hd3)

lemma chooseFold_first (tau : ℚ) (l : List (ℕ × ℕ)) (cur : ℕ × ℕ) :
    ∃ l1 l2, cur :: l = l1 ++ (chooseFold tau l cur) :: l2 ∧
      ∀ d ∈ l1, betterCandidate tau (chooseFold tau l cur) d := by
  induction l generalizing cur with
  | nil => exact ⟨[], [], rfl, by simp⟩
  | cons c rest ih =>
    rw [chooseFold_cons]
    by_cases hb : betterCandidate tau c cur
    · rw [if_pos hb]
      obtain ⟨l1, l2, hsplit, hl1⟩ := ih c
      refine ⟨cur :: l1, l2, by rw [List.cons_append, ← hsplit], ?_⟩
      intro d hd
      rcases List.mem_cons.mp hd with rfl | hd2
      · cases l1 with
        | nil =>
          have hres : c = chooseFold tau rest c := by
            have h' := hsplit
            rw [List.nil_append] at h'
            exact (List.head_eq_of_cons_eq h')
          rw [← hres]
          exact hb
        | cons x l1' =>
          have hx : c = x := by
            rw [List.cons_append] at hsplit
            exact List.head_eq_of_cons_eq hsplit
          exact better_trans (hl1 c (hx ▸ List.mem_cons_self x l1')) hb
      · exact hl1 d hd2
    · rw [if_neg hb]
      obtain ⟨l1, l2, hsplit, hl1⟩ := ih cur
      cases l1 with
      | nil =>
        rw [List.nil_append] at hsplit
        have hres : cur = chooseFold tau rest cur := List.head_eq_of_cons_eq hsplit
        refine ⟨[], c :: rest, ?_, by simp⟩
        rw [List.nil_append, ← hres]
      | cons x l1' =>
        rw [List.cons_append] at hsplit
        have hx : cur = x := List.head_eq_of_cons_eq hsplit
        have htail : rest = l1' ++ chooseFold tau rest cur :: l2 :=
          List.tail_eq_of_cons_eq hsplit
        have hrescur : betterCandidate tau (chooseFold tau rest cur) cur :=
          hl1 cur (hx ▸ List.mem_cons_self x l1')
        refine ⟨cur :: c :: l1', l2, ?_, ?_⟩
        · rw [List.cons_append, List.cons_append, ← htail]
        · intro d hd
          rcases List.mem_cons.mp hd with rfl | hd2
          · exact hrescur
          · rcases List.mem_cons.mp hd2 with rfl | hd3
            · exact better_of_better_of_not_better hrescur hb
            · exact hl1 d (List.mem_cons_of_mem _ hd3)

lemma lshProbability_ok (tau : ℚ) (r b : ℕ) (h : ¬ (tau < 0 ∨ 1 < tau)) :
    lshProbability tau r b = Except.ok (lshProbabilityRaw tau r b) := by
  rw [lshProbability, if_neg h]

lemma chooseLoop_eq_fold (tau : ℚ) (htau : ¬ (tau < 0 ∨ 1 < tau)) (l : List (ℕ × ℕ)) :
    ∀ cur : ℕ × ℕ,
      chooseLoop tau l (some (⟨cur.1, cur.2⟩, distTo tau cur, slopeTo tau cur)) =
        Except.ok (some (⟨(chooseFold tau l cur).1, (chooseFold tau l cur).2⟩,
          distTo tau (chooseFold tau l cur), slopeTo tau (chooseFold tau l cur))) := by
  induction l with
  | nil =>
    intro cur
    rfl
  | cons c rest ih =>
    intro cur
    rw [chooseFold_cons]
    show (match lshProbability tau c.1 c.2 with
      | Except.error e => Except.error e
      | Except.ok fTau =>
        chooseLoop tau rest
          (if |fTau - 1 / 2| < distTo tau cur then
            some (⟨c.1, c.2⟩, |fTau - 1 / 2|, lshSlope tau c.1 c.2)
          else if |fTau - 1 / 2| = distTo tau cur ∧ slopeTo tau cur < lshSlope tau c.1 c.2 then
            some (⟨c.1, c.2⟩, |fTau - 1 / 2|, lshSlope tau c.1 c.2)
          else some (⟨cur.1, cur.2⟩, distTo tau cur, slopeTo tau cur))) = _
    rw [lshProbability_ok tau c.1 c.2 htau]
    show chooseLoop tau rest
        (if distTo tau c < distTo tau cur then
          some (⟨c.1, c.2⟩, distTo tau c, slopeTo tau c)
        else if distTo tau c = distTo tau cur ∧ slopeTo tau cur < slopeTo tau c then
          some (⟨c.1, c.2⟩, distTo tau c, slopeTo tau c)
        else some (⟨cur.1, cur.2⟩, distTo tau cur, slopeTo tau cur)) = _
    by_cases h1 : distTo tau c < distTo tau cur
    · have hbc : betterCandidate tau c cur := Or.inl h1
      rw [if_pos h1, if_pos hbc]
      exact ih c
    · rw [if_neg h1]
      by_cases h2 : distTo tau c = distTo tau cur ∧ slopeTo tau cur < slopeTo tau c
      · have hbc : betterCandidate tau c cur := Or.inr h2
        rw [if_pos h2, if_pos hbc]
        exact ih c
      · have hbc : ¬ betterCandidate tau c cur := by
          rintro (hb | hb)
          · exact h1 hb
          · exact h2 hb
        rw [if_neg h2, if_neg hbc]
        exact ih cur

lemma mem_factorPairs_iff (n : ℕ) (hn : 1 ≤ n) (c : ℕ × ℕ) :
    c ∈ factorPairs n ↔ 1 ≤ c.1 ∧ c.1 * c.2 = n := by
  unfold factorPairs
  rw [List.mem_map]
  constructor
  · rintro ⟨r, hr, rfl⟩
    rw [List.mem_filter] at hr
    obtain ⟨hrange, hdvd⟩ := hr
    obtain ⟨i, _, rfl⟩ := List.mem_range'.mp hrange
    have hd : n % (1 + 1 * i) = 0 := by simpa using hdvd
    exact ⟨by omega, Nat.mul_div_cancel' (Nat.dvd_of_mod_eq_zero hd)⟩
  · rintro ⟨h1, h2⟩
    have hc2 : 1 ≤ c.2 := by
      rcases Nat.eq_zero_or_pos c.2 with h | h
      · rw [h, Nat.mul_zero] at h2
        omega
      · exact h
    have hle : c.1 ≤ n := by
      calc c.1 = c.1 * 1 := by rw [Nat.mul_one]
      _ ≤ c.1 * c.2 := Nat.mul_le_mul_left _ hc2
      _ = n := h2
    refine ⟨c.1, ?_, ?_⟩
    · rw [List.mem_filter]
      refine ⟨List.mem_range'.mpr ⟨c.1 - 1, by omega, by omega⟩, ?_⟩
      have hmod : n % c.1 = 0 := Nat.mod_eq_zero_of_dvd ⟨c.2, h2.symm⟩
      simp [hmod]
    · have hdiv : n / c.1 = c.2 := by
        rw [← h2, Nat.mul_div_cancel_left _ (by omega : 0 < c.1)]
      rw [hdiv]

lemma factorPairs_pairwise (n : ℕ) :
    List.Pairwise (fun c d : ℕ × ℕ => c.1 < d.1) (factorPairs n) := by
  unfold factorPairs
  rw [List.pairwise_map]
  exact (List.pairwise_lt_range' 1 n).filter _

lemma factorPairs_head (n : ℕ) :
    factorPairs (n + 1) =
      (1, n + 1) :: ((List.range' 2 n).filter (fun r => (n + 1) % r == 0)).map
        (fun r => (r, (n + 1) / r)) := by
  unfold factorPairs
  rw [List.range'_succ, List.filter_cons_of_pos (by simp [Nat.mod_one])]
  simp [Nat.div_one]

/-- C4: for t >= 1 and tau in [0, 1], choose_lsh_params succeeds and
returns a divisor pair of t selected from factor_pairs t, which
enumerates exactly the pairs (r, b) with r * b = t in strictly
increasing r order; no enumerated candidate beats the returned pair
(strictly smaller distance of f(tau) to 1/2, or an exact distance tie
with strictly larger slope), and the returned pair strictly beats every
candidate enumerated before it, so the first-seen candidate wins all
exact ties and the first candidate is the initial best. -/
theorem choose_lsh_params_spec (t : ℕ) (tau : ℚ) (ht : 1 ≤ t) (h0 : 0 ≤ tau)
    (h1 : tau ≤ 1) :
    ∃ p : LshParams,
      chooseLshParams t tau = Except.ok p ∧
      (p.r, p.b) ∈ factorPairs t ∧
      (∀ c : ℕ × ℕ, c ∈ factorPairs t ↔ 1 ≤ c.1 ∧ c.1 * c.2 = t) ∧
      List.Pairwise (fun c d : ℕ × ℕ => c.1 < d.1) (factorPairs t) ∧
      (∀ c ∈ factorPairs t, ¬ betterCandidate tau c (p.r, p.b)) ∧
      (∃ l1 l2, factorPairs t = l1 ++ (p.r, p.b) :: l2 ∧
        ∀ d ∈ l1, betterCandidate tau (p.r, p.b) d) := by
  have htau : ¬ (tau < 0 ∨ 1 < tau) := by
    push_neg
    exact ⟨h0, h1⟩
  obtain ⟨n, rfl⟩ : ∃ n, t = n + 1 := ⟨t - 1, by omega⟩
  have hfp := factorPairs_head n
  generalize hrest : ((List.range' 2 n).filter
    (fun r => (n + 1) % r == 0)).map (fun r => (r, (n + 1) / r)) = rest at hfp
  have hstep : chooseLoop tau (factorPairs (n + 1)) none =
      chooseLoop tau rest (some (⟨(1, n + 1).1, (1, n + 1).2⟩,
        distTo tau (1, n + 1), slopeTo tau (1, n + 1))) := by
    rw [hfp]
    show (match lshProbability tau 1 (n + 1) with
      | Except.error e => Except.error e
      | Except.ok fTau =>
        chooseLoop tau rest
          (some (⟨1, n + 1⟩, |fTau - 1 / 2|, lshSlope tau 1 (n + 1)))) = _
    rw [lshProbability_ok tau 1 (n + 1) htau]
    rfl
  have hchoose : chooseLshParams (n + 1) tau =
      Except.ok ⟨(chooseFold tau rest (1, n + 1)).1, (chooseFold tau rest (1, n + 1)).2⟩ := by
    unfold chooseLshParams
    rw [hstep, chooseLoop_eq_fold tau htau rest (1, n + 1)]
  refine ⟨⟨(chooseFold tau rest (1, n + 1)).1, (chooseFold tau rest (1, n + 1)).2⟩,
    hchoose, ?_, ?_, ?_, ?_, ?_⟩
  · show chooseFold tau rest (1, n + 1) ∈ factorPairs (n + 1)
    rw [hfp]
    exact chooseFold_mem tau rest (1, n + 1)
  · exact mem_factorPairs_iff (n + 1) (by omega)
  · exact factorPairs_pairwise _
  · intro c hc
    rw [hfp] at hc
    exact chooseFold_not_beaten tau rest (1, n + 1) c hc
  · obtain ⟨l1, l2, hsplit, hl1⟩ := chooseFold_first tau rest (1, n + 1)
    refine ⟨l1, l2, ?_, hl1⟩
    rw [hfp]
    exact hsplit

/-- C4 witness: at t = 160 and tau = 7/10 the selector returns the
divisor pair (16, 10), whose f(7/10) is nearest 1/2 among all divisor
pairs of 160 by the optimality clause of the theorem. -/
theorem choose_lsh_params_spec_witness :
    ((1 : ℕ) ≤ 160 ∧ (0 : ℚ) ≤ 7 / 10 ∧ (7 / 10 : ℚ) ≤ 1) ∧
    chooseLshParams 160 (7 / 10) = Except.ok ⟨16, 10⟩ ∧
    (∃ p : LshParams,
      chooseLshParams 160 (7 / 10) = Except.ok p ∧
      (p.r, p.b) ∈ factorPairs 160 ∧
      (∀ c : ℕ × ℕ, c ∈ factorPairs 160 ↔ 1 ≤ c.1 ∧ c.1 * c.2 = 160) ∧
      List.Pairwise (fun c d : ℕ × ℕ => c.1 < d.1) (factorPairs 160) ∧
      (∀ c ∈ factorPairs 160, ¬ betterCandidate (7 / 10) c (p.r, p.b)) ∧
      (∃ l1 l2, factorPairs 160 = l1 ++ (p.r, p.b) :: l2 ∧
        ∀ d ∈ l1, betterCandidate (7 / 10) (p.r, p.b) d)) :=
  ⟨⟨by norm_num, by norm_num, by norm_num⟩,
    by with_unfolding_all rfl,
    choose_lsh_params_spec 160 (7 / 10) (by norm_num) (by norm_num) (by norm_num)⟩

/-- C10 witness: the two signature paths agree on a concrete token list,
hash family and modulus. -/
theorem minhash_signature_refines_witness :
    minhashSignature ["a"] [{ a := 1, b := 0 }] 5 =
      minhashSignatureFromInts ((["a"] : List String).map hashToken) [{ a := 1, b := 0 }] 5 :=
  minhash_signature_refines ["a"] [{ a := 1, b := 0 }] 5

/-- C9 amended witness: the bound holds at a concrete token. -/
theorem hash_token_range_witness :
    hashToken ("a") < 2 ^ 64 ∧ 2 ^ 32 < PRIME ∧ PRIME < 2 ^ 64 :=
  hash_token_range ("a")

end MLBD
